import Mathlib

/-!
Verification development for the creative-ark repository (a browser-based
multimodal AI client).  Text is modelled as `List Char`.  The JSON codec
models the platform facilities `JSON.parse` / `JSON.stringify` (third-party
per the spec, out of scope as source): the parser is a fuel-bounded
recursive-descent parser over the JSON subset the application exchanges
(no fraction or exponent numeric literals, no \u escapes), and the
stringifier is the compact form `JSON.stringify` produces.
-/

/-- Convert a Lean string literal to the `List Char` text representation. -/
def chars (s : String) : List Char := s.toList

/-- The opening curly-bracket character (written via its code point). -/
def lbrace : Char := Char.ofNat 123

/-- The closing curly-bracket character (written via its code point). -/
def rbrace : Char := Char.ofNat 125

mutual
/-- JSON values, as produced by the platform JSON parser.  Modelled from the
spec: JSON parsing is a platform facility (spec section 1); numbers are
restricted to integers, which covers every value this application parses. -/
inductive Json where
  | null : Json
  | bool (b : Bool) : Json
  | num (n : Int) : Json
  | str (s : List Char) : Json
  | arr (elems : JsonList) : Json
  | obj (fields : JsonFields) : Json
deriving DecidableEq

/-- A list of JSON values (elements of a JSON array). -/
inductive JsonList where
  | nil : JsonList
  | cons (head : Json) (tail : JsonList) : JsonList
deriving DecidableEq

/-- The fields of a JSON object, in insertion order, as JavaScript keeps them. -/
inductive JsonFields where
  | nil : JsonFields
  | cons (key : List Char) (value : Json) (tail : JsonFields) : JsonFields
deriving DecidableEq
end

/-- JavaScript truthiness of a JSON value (used by `if (!config.providers)`). -/
def jsTruthy : Json → Bool
  | Json.null => false
  | Json.bool b => b
  | Json.num n => n != 0
  | Json.str s => !s.isEmpty
  | Json.arr _ => true
  | Json.obj _ => true

/-- Read a property of a JSON object (JavaScript `o[k]`); `none` models
`undefined`. -/
def lookupField : JsonFields → List Char → Option Json
  | JsonFields.nil, _ => none
  | JsonFields.cons k v t, key => if k = key then some v else lookupField t key

/-- JavaScript property assignment `o[k] = v`: replaces the value in place if
the key exists, otherwise appends the new key at the end. -/
def setField : JsonFields → List Char → Json → JsonFields
  | JsonFields.nil, key, v => JsonFields.cons key v JsonFields.nil
  | JsonFields.cons k w t, key, v =>
      if k = key then JsonFields.cons k v t else JsonFields.cons k w (setField t key v)

/-- JavaScript member access `x.k` on an arbitrary value: `undefined` (here
`none`) unless the value is an object with the key. -/
def jsonField : Json → List Char → Option Json
  | Json.obj fs, key => lookupField fs key
  | _, _ => none

/-- Whether a character is JSON insignificant whitespace. -/
def isWsChar (c : Char) : Bool :=
  (c == ' ') || (c == '\n') || (c == '\t') || (c == '\r')

/-- Skip leading JSON whitespace. -/
def skipWs : List Char → List Char
  | [] => []
  | c :: r => if isWsChar c then skipWs r else c :: r

/-- Decode a single JSON string escape character (the char after a backslash). -/
def escDecode (e : Char) : Option Char :=
  if e = '"' then some '"'
  else if e = '\\' then some '\\'
  else if e = '/' then some '/'
  else if e = 'n' then some '\n'
  else if e = 't' then some '\t'
  else if e = 'r' then some '\r'
  else if e = 'b' then some (Char.ofNat 8)
  else if e = 'f' then some (Char.ofNat 12)
  else none

/-- Parse the body of a JSON string literal after the opening quote, up to and
including the closing quote; returns the decoded text and the remainder. -/
def parseStringBody : List Char → Option (List Char × List Char)
  | [] => none
  | c :: rest =>
    if c = '"' then some ([], rest)
    else if c = '\\' then
      match rest with
      | [] => none
      | e :: rest2 =>
        match escDecode e with
        | some d =>
          match parseStringBody rest2 with
          | some (s, r) => some (d :: s, r)
          | none => none
        | none => none
    else
      match parseStringBody rest with
      | some (s, r) => some (c :: s, r)
      | none => none

/-- Match an expected literal character sequence, returning the remainder. -/
def dropLit : List Char → List Char → Option (List Char)
  | [], s => some s
  | c :: cs, s =>
    match s with
    | [] => none
    | d :: s2 => if d = c then dropLit cs s2 else none

/-- Take the maximal run of decimal digits from the front of the input. -/
def takeDigits : List Char → List Char × List Char
  | [] => ([], [])
  | c :: rest =>
    if c.isDigit then
      match takeDigits rest with
      | (ds, r) => (c :: ds, r)
    else ([], c :: rest)

/-- Numeric value of a run of decimal digits. -/
def digitsToNat (ds : List Char) : Nat :=
  ds.foldl (fun a c => a * 10 + (c.toNat - 48)) 0

mutual
/-- Fuel-bounded JSON value parser; returns the value and the remaining input. -/
def parseVal : Nat → List Char → Option (Json × List Char)
  | 0, _ => none
  | Nat.succ fuel, input =>
    match skipWs input with
    | [] => none
    | c :: r =>
      if c = '"' then
        match parseStringBody r with
        | some (s, r2) => some (Json.str s, r2)
        | none => none
      else if c = lbrace then
        match parseFields fuel r with
        | some (fs, r2) => some (Json.obj fs, r2)
        | none => none
      else if c = '[' then
        match parseElems fuel r with
        | some (es, r2) => some (Json.arr es, r2)
        | none => none
      else if c = 'n' then
        match dropLit ['u', 'l', 'l'] r with
        | some r2 => some (Json.null, r2)
        | none => none
      else if c = 't' then
        match dropLit ['r', 'u', 'e'] r with
        | some r2 => some (Json.bool true, r2)
        | none => none
      else if c = 'f' then
        match dropLit ['a', 'l', 's', 'e'] r with
        | some r2 => some (Json.bool false, r2)
        | none => none
      else if c = '-' then
        match takeDigits r with
        | ([], _) => none
        | (ds, r2) => some (Json.num (-(digitsToNat ds : Int)), r2)
      else if c.isDigit then
        match takeDigits (c :: r) with
        | (ds, r2) => some (Json.num (digitsToNat ds), r2)
      else none

/-- Parse the elements of a JSON array after the opening bracket (possibly an
empty array), consuming the closing bracket. -/
def parseElems : Nat → List Char → Option (JsonList × List Char)
  | 0, _ => none
  | Nat.succ fuel, s =>
    match skipWs s with
    | [] => none
    | c :: r => if c = ']' then some (JsonList.nil, r) else parseElems1 fuel (c :: r)

/-- Parse one or more comma-separated JSON array elements, consuming the
closing bracket. -/
def parseElems1 : Nat → List Char → Option (JsonList × List Char)
  | 0, _ => none
  | Nat.succ fuel, s =>
    match parseVal fuel s with
    | some (v, r) =>
      match skipWs r with
      | [] => none
      | c :: r2 =>
        if c = ',' then
          match parseElems1 fuel r2 with
          | some (vs, r3) => some (JsonList.cons v vs, r3)
          | none => none
        else if c = ']' then some (JsonList.cons v JsonList.nil, r2)
        else none
    | none => none

/-- Parse the fields of a JSON object after the opening brace (possibly an
empty object), consuming the closing brace. -/
def parseFields : Nat → List Char → Option (JsonFields × List Char)
  | 0, _ => none
  | Nat.succ fuel, s =>
    match skipWs s with
    | [] => none
    | c :: r => if c = rbrace then some (JsonFields.nil, r) else parseFields1 fuel (c :: r)

/-- Parse one or more comma-separated JSON object fields, consuming the
closing brace. -/
def parseFields1 : Nat → List Char → Option (JsonFields × List Char)
  | 0, _ => none
  | Nat.succ fuel, s =>
    match skipWs s with
    | [] => none
    | c :: r =>
      if c = '"' then
        match parseStringBody r with
        | some (k, r2) =>
          match skipWs r2 with
          | [] => none
          | c2 :: r3 =>
            if c2 = ':' then
              match parseVal fuel r3 with
              | some (v, r4) =>
                match skipWs r4 with
                | [] => none
                | c3 :: r5 =>
                  if c3 = ',' then
                    match parseFields1 fuel r5 with
                    | some (fs, r6) => some (JsonFields.cons k v fs, r6)
                    | none => none
                  else if c3 = rbrace then some (JsonFields.cons k v JsonFields.nil, r5)
                  else none
              | none => none
            else none
        | none => none
      else none
end

/-- The platform `JSON.parse`, modelled from the spec: `some` on success,
`none` models a thrown SyntaxError.  The fuel bound is generous enough for
any input of the given length. -/
def parseJson (s : List Char) : Option Json :=
  match parseVal (3 * s.length + 4) s with
  | some (j, r) =>
    match skipWs r with
    | [] => some j
    | _ :: _ => none
  | none => none

/-- Escape one character for a JSON string literal. -/
def escChar (c : Char) : List Char :=
  if c = '"' then ['\\', '"']
  else if c = '\\' then ['\\', '\\']
  else if c = '\n' then ['\\', 'n']
  else if c = '\t' then ['\\', 't']
  else if c = '\r' then ['\\', 'r']
  else [c]

/-- Escape the contents of a JSON string literal. -/
def escape : List Char → List Char
  | [] => []
  | c :: rest => escChar c ++ escape rest

/-- Serialize a JSON string literal including the surrounding quotes. -/
def stringifyStr (s : List Char) : List Char := '"' :: (escape s ++ ['"'])

/-- The decimal digit character for a value below ten. -/
def digitChar (m : Nat) : Char := Char.ofNat (48 + m)

/-- Decimal representation of a natural number. -/
def natToChars (m : Nat) : List Char :=
  if m < 10 then [digitChar m]
  else natToChars (m / 10) ++ [digitChar (m % 10)]
termination_by m
decreasing_by
  exact Nat.div_lt_self (by omega) (by omega)

/-- Decimal representation of an integer. -/
def intToChars (n : Int) : List Char :=
  if n < 0 then '-' :: natToChars (-n).toNat else natToChars n.toNat

mutual
/-- The platform `JSON.stringify`, modelled from the spec: the compact
serialization with no added whitespace. -/
def stringifyVal : Json → List Char
  | Json.null => ['n', 'u', 'l', 'l']
  | Json.bool b => if b then ['t', 'r', 'u', 'e'] else ['f', 'a', 'l', 's', 'e']
  | Json.num n => intToChars n
  | Json.str s => stringifyStr s
  | Json.arr xs => '[' :: (stringifyElems xs ++ [']'])
  | Json.obj fs => lbrace :: (stringifyFields fs ++ [rbrace])

/-- Serialize JSON array elements, comma separated. -/
def stringifyElems : JsonList → List Char
  | JsonList.nil => []
  | JsonList.cons x t =>
    match t with
    | JsonList.nil => stringifyVal x
    | JsonList.cons _ _ => stringifyVal x ++ ',' :: stringifyElems t

/-- Serialize JSON object fields, comma separated. -/
def stringifyFields : JsonFields → List Char
  | JsonFields.nil => []
  | JsonFields.cons k v t =>
    match t with
    | JsonFields.nil => stringifyStr k ++ ':' :: stringifyVal v
    | JsonFields.cons _ _ _ => stringifyStr k ++ ':' :: stringifyVal v ++ ',' :: stringifyFields t
end

mutual
/-- Fuel measure of a JSON value for the parser round trip. -/
def Json.size : Json → Nat
  | Json.arr xs => JsonList.size xs + 2
  | Json.obj fs => JsonFields.size fs + 2
  | _ => 1

/-- Fuel measure of JSON array elements. -/
def JsonList.size : JsonList → Nat
  | JsonList.nil => 0
  | JsonList.cons x t => Json.size x + JsonList.size t + 1

/-- Fuel measure of JSON object fields. -/
def JsonFields.size : JsonFields → Nat
  | JsonFields.nil => 0
  | JsonFields.cons _ v t => Json.size v + JsonFields.size t + 1
end

/-- Whether the input does not begin with a digit (so that a serialized number
followed by it parses back unchanged). -/
def numSafe : List Char → Bool
  | [] => true
  | c :: _ => !c.isDigit

/-- The server-sent-event line marker `data: ` checked by the stream loop. -/
def dataMarker : List Char := chars "data: "

/-- The stream termination sentinel payload `[DONE]`. -/
def doneTok : List Char := chars "[DONE]"

/-- Extraction `parsed.choices?.[0]?.delta` followed by the `delta?.content`
access in the stream loop of ChatInterface.tsx; `none` models `undefined`
(and a non-string content value, which the application never receives). -/
def deltaContent (j : Json) : Option (List Char) :=
  match jsonField j (chars "choices") with
  | some (Json.arr (JsonList.cons c0 _)) =>
    match jsonField c0 (chars "delta") with
    | some d =>
      match jsonField d (chars "content") with
      | some (Json.str s) => some s
      | _ => none
    | none => none
  | _ => none

/-- One iteration of the line loop in ChatInterface.tsx `sendMessage`
(lines 189-212): keep only `data: ` lines, skip the `[DONE]` sentinel,
parse the payload as JSON (a parse failure is caught and skipped), and
append a truthy `delta.content` to the accumulator. -/
def processLine (acc line : List Char) : List Char :=
  if dataMarker.isPrefixOf line then
    let dat := line.drop 6
    if dat = doneTok then acc
    else
      match parseJson dat with
      | none => acc
      | some j =>
        match deltaContent j with
        | some s => if s.isEmpty then acc else acc ++ s
        | none => acc
  else acc

/-- The `chunk.split('\n')` of the stream loop: split on newline, keeping
empty segments, never returning an empty list. -/
def splitLines : List Char → List (List Char)
  | [] => [[]]
  | c :: rest =>
    if c = '\n' then [] :: splitLines rest
    else
      match splitLines rest with
      | [] => [[c]]
      | l :: ls => (c :: l) :: ls

/-- Processing of one decoded network chunk by the stream loop of
ChatInterface.tsx (lines 186-212): split the chunk on newline and run the
line loop over every resulting segment.  There is no carry of a trailing
incomplete segment into the next chunk. -/
def processChunk (acc chunk : List Char) : List Char :=
  (splitLines chunk).foldl processLine acc

/-- The message role of ChatInterface.tsx / TextChat.tsx. -/
inductive Role where
  | user : Role
  | assistant : Role
deriving DecidableEq, Repr

/-- The `Message` record of ChatInterface.tsx (optional fields of the
TypeScript interface are `Option`s; absent `images` is the empty list). -/
structure Message where
  id : List Char
  role : Role
  content : List Char
  images : List (List Char)
  timestamp : List Char
  model : Option (List Char)
  providerId : Option (List Char)
deriving DecidableEq, Repr

/-- The message list visible (and persisted on success) after the streaming
part of ChatInterface.tsx `sendMessage`: the user message is appended, an
empty assistant placeholder is appended, and each streamed delta rewrites the
placeholder content to the accumulator.  When a chunk read raises after the
listed chunks, the catch block (lines 227-232) performs no list update, so
the same list stays visible with the partial accumulator. -/
def sendMessageResult (prior : List Message) (userMsg : Message)
    (assistantId ts : List Char) (chunks : List (List Char)) : List Message :=
  let newMessages := prior ++ [userMsg]
  let ph : Message :=
    { id := assistantId, role := Role.assistant, content := [], images := [],
      timestamp := ts, model := none, providerId := none }
  let withPh := newMessages ++ [ph]
  let acc := List.foldl processChunk [] chunks
  withPh.map (fun m => if m.id = assistantId then { m with content := acc } else m)

/-- The message list persisted by TextChat.tsx `sendMessage` (lines 111, 149,
151): the user message and the assistant reply are appended and the full
list is written to storage. -/
def appendTextChatTurn (messages : List Message) (userMsg assistantMsg : Message) :
    List Message :=
  (messages ++ [userMsg]) ++ [assistantMsg]

/-- The message list visible after ChatInterface.tsx `regenerateMessage`:
the list is truncated before the regenerated reply, a fresh assistant
placeholder streams the new content; on success the updated list stays, but
when a chunk read raises (`fails = true`) the catch block (lines 395-402)
runs `setMessages(messages)`, restoring the original list. -/
def regenerateMessageResult (messages : List Message) (messageId : List Char)
    (newId ts : List Char) (chunks : List (List Char)) (fails : Bool) : List Message :=
  match messages.findIdx? (fun m => m.id == messageId) with
  | none => messages
  | some idx =>
    if idx = 0 then messages
    else
      match messages[idx - 1]? with
      | none => messages
      | some prev =>
        if prev.role = Role.user then
          let before := messages.take idx
          let ph : Message :=
            { id := newId, role := Role.assistant, content := [], images := [],
              timestamp := ts, model := none, providerId := none }
          let withPh := before ++ [ph]
          let acc := List.foldl processChunk [] chunks
          let updated :=
            withPh.map (fun m => if m.id = newId then { m with content := acc } else m)
          if fails then messages else updated
        else messages

/-- The `GenerationItem` record of the image-generation component. -/
structure GenerationItem where
  id : List Char
  image : List Char
  prompt : List Char
  timestamp : List Char
  referenceImages : List (List Char)
  imageSize : Option (List Char)
  model : Option (List Char)
  providerId : Option (List Char)
deriving DecidableEq, Repr

/-- The history update of `handleGenerate`:
`[historyItem, ...existingHistory].slice(0, 50)`. -/
def appendGenerationHistory (item : GenerationItem) (existing : List GenerationItem) :
    List GenerationItem :=
  (item :: existing).take 50

/-- The image-generation request body shape built by `generateImageWithAPI`
in the ImageGeneration component of src/src/App.tsx; absent optional fields
are `none`. -/
structure ImageGenRequest where
  model : List Char
  prompt : List Char
  n : Nat
  size : List Char
  quality : List Char
  response_format : List Char
  image : Option (List Char)
  images : Option (List (List Char))
deriving DecidableEq, Repr

/-- The request-body construction of `generateImageWithAPI` (src/src/App.tsx
lines 192-207): the base text-to-image body, plus a singular `image` field
for exactly one reference image and a plural `images` field for several. -/
def generateImageRequestBody (selectedModel promptText imageSize : List Char)
    (referenceImages : List (List Char)) : ImageGenRequest :=
  let requestBody : ImageGenRequest :=
    { model := selectedModel, prompt := promptText, n := 1, size := imageSize,
      quality := chars "standard", response_format := chars "url",
      image := none, images := none }
  if 0 < referenceImages.length then
    if referenceImages.length = 1 then { requestBody with image := referenceImages[0]? }
    else { requestBody with images := some referenceImages }
  else requestBody

/-- The fixed symmetric key baked into the client (apiConfig utility). -/
def ENCRYPT_KEY : List Char := chars "creative-ark-secret-key"

/-- Modelled from the spec: `CryptoJS.AES.encrypt(...).toString()` is a
third-party facility (spec sections 1 and 4.1); it is modelled as a
key-tagged invertible encoding whose ciphertexts are recognizable. -/
def cryptoAesEncrypt (key msg : List Char) : List Char := key ++ msg

/-- Modelled from the spec: `CryptoJS.AES.decrypt` followed by the UTF-8
decoding; `none` models the thrown error on malformed ciphertext. -/
def cryptoAesDecrypt (key ct : List Char) : Option (List Char) :=
  if key.isPrefixOf ct then some (ct.drop key.length) else none

/-- `encryptApiKey` of the apiConfig utility. -/
def encryptApiKey (apiKey : List Char) : List Char :=
  cryptoAesEncrypt ENCRYPT_KEY apiKey

/-- `decryptApiKey` of the apiConfig utility: the catch branch turns a
decryption failure into the empty string. -/
def decryptApiKey (encryptedKey : List Char) : List Char :=
  match cryptoAesDecrypt ENCRYPT_KEY encryptedKey with
  | some s => s
  | none => []

/-- The `api_config` storage key of the local persistent store is modelled by
its contents: `none` when absent, `some s` when holding the raw string s. -/
abbrev ConfigStore := Option (List Char)

/-- The key of the providers map inside the stored configuration. -/
def providersKey : List Char := chars "providers"

/-- The key of the apiKey field of one provider entry. -/
def apiKeyKey : List Char := chars "apiKey"

/-- The default configuration `{ providers: {} }` returned on a missing or
unparseable stored blob. -/
def emptyProvidersConfig : Json :=
  Json.obj (JsonFields.cons providersKey (Json.obj JsonFields.nil) JsonFields.nil)

/-- `getApiConfig` of the apiConfig utility: read the stored blob, parse it
as JSON, and fall back to the empty configuration when the entry is absent
or parsing throws. -/
def getApiConfig (store : ConfigStore) : Json :=
  match store with
  | some s =>
    match parseJson s with
    | some j => j
    | none => emptyProvidersConfig
  | none => emptyProvidersConfig

/-- `saveApiConfig` of the apiConfig utility: store the serialized blob. -/
def saveApiConfig (config : Json) : ConfigStore :=
  some (stringifyVal config)

/-- The in-memory update of `updateProviderConfig`: replace the falsy
`providers` property by an empty object, then assign
`config.providers[providerId] = { apiKey: cipher }`.  The result is `none`
on the dynamic-typing corner cases (a non-object configuration value or a
truthy non-object `providers` property) that the application never stores. -/
def updateConfigJson (config : Json) (providerId cipher : List Char) : Option Json :=
  match config with
  | Json.obj fields =>
    let fields1 :=
      match lookupField fields providersKey with
      | some v => if jsTruthy v then fields
                  else setField fields providersKey (Json.obj JsonFields.nil)
      | none => setField fields providersKey (Json.obj JsonFields.nil)
    match lookupField fields1 providersKey with
    | some (Json.obj ps) =>
      some (Json.obj (setField fields1 providersKey (Json.obj
        (setField ps providerId
          (Json.obj (JsonFields.cons apiKeyKey (Json.str cipher) JsonFields.nil))))))
    | _ => none
  | _ => none

/-- `updateProviderConfig` of the apiConfig utility: read the stored
configuration, write the encrypted key under the provider id, and persist. -/
def updateProviderConfig (store : ConfigStore) (providerId apiKey : List Char) :
    Option ConfigStore :=
  (updateConfigJson (getApiConfig store) providerId (encryptApiKey apiKey)).map
    saveApiConfig

/-- The stored configuration entry of one provider, as every reader accesses
it: `config.providers?.[providerId]`. -/
def providerEntry (config : Json) (providerId : List Char) : Option Json :=
  match jsonField config providersKey with
  | some (Json.obj ps) => lookupField ps providerId
  | _ => none

/-- A complete stream event line carrying the delta text `hi`, ending in a
newline (the JSON braces are assembled from their code points). -/
def eventHiChunk : List Char :=
  chars "data: " ++ [lbrace] ++ chars "\"choices\":[" ++ [lbrace] ++
    chars "\"delta\":" ++ [lbrace] ++ chars "\"content\":\"hi\"" ++
    [rbrace, rbrace] ++ chars "]" ++ [rbrace] ++ ['\n']

/-- The first part of `eventHiChunk` when it is torn mid JSON token. -/
def eventHiPart1 : List Char :=
  chars "data: " ++ [lbrace] ++ chars "\"cho"

/-- The second part of `eventHiChunk` when it is torn mid JSON token. -/
def eventHiPart2 : List Char :=
  chars "ices\":[" ++ [lbrace] ++ chars "\"delta\":" ++ [lbrace] ++
    chars "\"content\":\"hi\"" ++ [rbrace, rbrace] ++ chars "]" ++ [rbrace] ++ ['\n']

/-- The complete sentinel line without the trailing newline. -/
def doneLine : List Char := chars "data: [DONE]"

/-- The complete sentinel line as one chunk, ending in a newline. -/
def doneChunk : List Char := chars "data: [DONE]" ++ ['\n']

/-- A concrete user message for concrete instances. -/
def msgU : Message :=
  { id := chars "u1", role := Role.user, content := chars "question", images := [],
    timestamp := chars "t0", model := none, providerId := none }

/-- A concrete assistant message for concrete instances. -/
def msgA : Message :=
  { id := chars "a1", role := Role.assistant, content := chars "old answer", images := [],
    timestamp := chars "t1", model := none, providerId := none }

/-- A numbered filler chat message for concrete instances. -/
def mkChatMessage (i : Nat) : Message :=
  { id := natToChars i, role := Role.user, content := chars "m", images := [],
    timestamp := chars "t", model := none, providerId := none }

/-- A numbered filler generation record for concrete instances. -/
def mkGenerationItem (i : Nat) : GenerationItem :=
  { id := natToChars i, image := chars "img", prompt := chars "p",
    timestamp := chars "t", referenceImages := [], imageSize := none,
    model := none, providerId := none }

/-- The configuration blob stored after writing key `xyz` for provider `a`
into an empty store. -/
def c9StoredBlob : List Char :=
  [lbrace] ++ chars "\"providers\":" ++ [lbrace] ++ chars "\"a\":" ++ [lbrace] ++
    chars "\"apiKey\":\"creative-ark-secret-keyxyz\"" ++ [rbrace, rbrace, rbrace]


theorem splitLines_ne_nil (s : List Char) : splitLines s ≠ [] := by
  cases s with
  | nil => simp [splitLines]
  | cons c rest =>
    rw [splitLines]
    by_cases h : c = '\n'
    · simp [h]
    · simp only [if_neg h]
      cases splitLines rest <;> simp

theorem splitLines_append_newline (a b : List Char) :
    splitLines (a ++ '\n' :: b) = splitLines a ++ splitLines b := by
  induction a with
  | nil => simp [splitLines]
  | cons c a ih =>
    rw [List.cons_append, splitLines, splitLines]
    by_cases h : c = '\n'
    · simp [h, ih]
    · simp only [if_neg h, ih]
      rcases hs : splitLines a with _ | ⟨l, ls⟩
      · exact absurd hs (splitLines_ne_nil a)
      · simp

theorem processLine_nil (acc : List Char) : processLine acc [] = acc := by
  have h : dataMarker.isPrefixOf ([] : List Char) = false := by decide
  simp [processLine, h]

theorem processChunk_empty (acc : List Char) : processChunk acc [] = acc := by
  simp [processChunk, splitLines, processLine_nil]

theorem processChunk_append_newline (acc a b : List Char) :
    processChunk acc (a ++ '\n' :: b) =
      processChunk (processChunk acc (a ++ ['\n'])) b := by
  have h1 : splitLines (a ++ ['\n']) = splitLines a ++ [[]] := by
    have := splitLines_append_newline a []
    simpa [splitLines] using this
  simp only [processChunk, splitLines_append_newline, List.foldl_append, h1,
    List.foldl_cons, List.foldl_nil, processLine_nil]

theorem foldl_processChunk_join (chunks : List (List Char)) :
    ∀ acc : List Char,
      (∀ c ∈ chunks.dropLast, ∃ a, c = a ++ ['\n']) →
      List.foldl processChunk acc chunks = processChunk acc chunks.flatten := by
  induction chunks with
  | nil => intro acc _; simp [List.flatten, processChunk_empty]
  | cons c cs ih =>
    intro acc hc
    cases cs with
    | nil => simp [List.flatten]
    | cons c2 cs2 =>
      obtain ⟨a, ha⟩ : ∃ a, c = a ++ ['\n'] := by
        apply hc
        simp [List.dropLast]
      have hjoin : (c :: c2 :: cs2).flatten = a ++ '\n' :: (c2 :: cs2).flatten := by
        simp [List.flatten, ha, List.append_assoc]
      rw [List.foldl_cons, hjoin, processChunk_append_newline, ← ha]
      apply ih
      intro x hx
      apply hc
      simp only [List.dropLast] at hx ⊢
      exact List.mem_cons_of_mem _ hx

theorem skipWs_cons_not_ws (c : Char) (r : List Char) (h : isWsChar c = false) :
    skipWs (c :: r) = c :: r := by
  simp [skipWs, h]

theorem dropLit_append (lit rest : List Char) : dropLit lit (lit ++ rest) = some rest := by
  induction lit with
  | nil => simp [dropLit]
  | cons c cs ih => simp [dropLit, ih]

theorem parseStringBody_escape (s rest : List Char) :
    parseStringBody (escape s ++ '"' :: rest) = some (s, rest) := by
  induction s with
  | nil =>
    rw [escape, List.nil_append, parseStringBody.eq_def]
    simp
  | cons c s ih =>
    rw [escape, List.append_assoc]
    by_cases h1 : c = '"'
    · subst h1
      rw [escChar, if_pos rfl, List.cons_append, List.cons_append, List.nil_append,
        parseStringBody.eq_def]
      simp [escDecode, ih]
    · by_cases h2 : c = '\\'
      · subst h2
        rw [escChar]
        rw [if_neg (by decide), if_pos rfl, List.cons_append, List.cons_append,
          List.nil_append, parseStringBody.eq_def]
        simp [escDecode, ih]
      · by_cases h3 : c = '\n'
        · subst h3
          rw [escChar]
          rw [if_neg (by decide), if_neg (by decide), if_pos rfl, List.cons_append,
            List.cons_append, List.nil_append, parseStringBody.eq_def]
          simp [escDecode, ih]
        · by_cases h4 : c = '\t'
          · subst h4
            rw [escChar]
            rw [if_neg (by decide), if_neg (by decide), if_neg (by decide), if_pos rfl,
              List.cons_append, List.cons_append, List.nil_append, parseStringBody.eq_def]
            simp [escDecode, ih]
          · by_cases h5 : c = '\r'
            · subst h5
              rw [escChar]
              rw [if_neg (by decide), if_neg (by decide), if_neg (by decide),
                if_neg (by decide), if_pos rfl, List.cons_append, List.cons_append,
                List.nil_append, parseStringBody.eq_def]
              simp [escDecode, ih]
            · rw [escChar, if_neg h1, if_neg h2, if_neg h3, if_neg h4, if_neg h5,
                List.cons_append, List.nil_append, parseStringBody.eq_def]
              simp [h1, h2, ih]

theorem takeDigits_append (ds rest : List Char) (hds : ∀ c ∈ ds, c.isDigit = true)
    (hr : numSafe rest = true) : takeDigits (ds ++ rest) = (ds, rest) := by
  induction ds with
  | nil =>
    cases rest with
    | nil => simp [takeDigits]
    | cons c r =>
      simp only [numSafe, Bool.not_eq_true'] at hr
      simp [takeDigits, hr]
  | cons d ds ih =>
    have hd : d.isDigit = true := hds d (by simp)
    have ht : ∀ c ∈ ds, c.isDigit = true := fun c hc => hds c (by simp [hc])
    simp [takeDigits, hd, ih ht]

theorem digitChar_isDigit : ∀ m, m < 10 → (digitChar m).isDigit = true := by decide

theorem digitsToNat_append (xs : List Char) (d : Char) :
    digitsToNat (xs ++ [d]) = digitsToNat xs * 10 + (d.toNat - 48) := by
  simp [digitsToNat, List.foldl_append]

theorem digitsToNat_digitChar : ∀ m, m < 10 → digitsToNat [digitChar m] = m := by decide

theorem natToChars_ne_nil (m : Nat) : natToChars m ≠ [] := by
  rw [natToChars]
  by_cases h : m < 10 <;> simp [h]

theorem natToChars_digits (m : Nat) : ∀ c ∈ natToChars m, c.isDigit = true := by
  induction m using Nat.strong_induction_on with
  | _ m ih =>
    rw [natToChars]
    by_cases h : m < 10
    · simp only [if_pos h]
      intro c hc
      simp at hc
      subst hc
      exact digitChar_isDigit m h
    · simp only [if_neg h]
      intro c hc
      rcases List.mem_append.mp hc with h1 | h1
      · exact ih (m / 10) (Nat.div_lt_self (by omega) (by omega)) c h1
      · simp at h1
        subst h1
        exact digitChar_isDigit _ (Nat.mod_lt _ (by omega))

theorem digitsToNat_natToChars (m : Nat) : digitsToNat (natToChars m) = m := by
  induction m using Nat.strong_induction_on with
  | _ m ih =>
    rw [natToChars]
    by_cases h : m < 10
    · simp only [if_pos h]
      exact digitsToNat_digitChar m h
    · simp only [if_neg h]
      rw [digitsToNat_append, ih (m / 10) (Nat.div_lt_self (by omega) (by omega))]
      have h2 : (digitChar (m % 10)).toNat - 48 = m % 10 := by
        have := digitsToNat_digitChar (m % 10) (Nat.mod_lt _ (by omega))
        simpa [digitsToNat] using this
      rw [h2]
      omega

theorem isDigit_ne {c : Char} (d : Char) (h : c.isDigit = true) (hd : d.isDigit = false) :
    c ≠ d := by
  intro he
  subst he
  rw [h] at hd
  exact Bool.noConfusion hd

theorem isDigit_not_ws {c : Char} (h : c.isDigit = true) : isWsChar c = false := by
  have h1 : c ≠ ' ' := isDigit_ne ' ' h (by decide)
  have h2 : c ≠ '\n' := isDigit_ne '\n' h (by decide)
  have h3 : c ≠ '\t' := isDigit_ne '\t' h (by decide)
  have h4 : c ≠ '\r' := isDigit_ne '\r' h (by decide)
  simp [isWsChar, h1, h2, h3, h4]

theorem natToChars_shape (m : Nat) : ∃ c cs, natToChars m = c :: cs ∧ c.isDigit = true := by
  rcases h : natToChars m with _ | ⟨c, cs⟩
  · exact absurd h (natToChars_ne_nil m)
  · exact ⟨c, cs, rfl, natToChars_digits m c (by rw [h]; simp)⟩

theorem parseVal_num (n : Int) (f : Nat) (rest : List Char) (hr : numSafe rest = true) :
    parseVal (f + 1) (intToChars n ++ rest) = some (Json.num n, rest) := by
  rw [intToChars]
  by_cases hn : n < 0
  · rw [if_pos hn]
    obtain ⟨c, cs, hshape, hdig⟩ := natToChars_shape (-n).toNat
    rw [hshape, List.cons_append, List.cons_append, parseVal.eq_def]
    have hskip : skipWs ('-' :: c :: (cs ++ rest)) = '-' :: c :: (cs ++ rest) :=
      skipWs_cons_not_ws _ _ (by decide)
    have htake : takeDigits (c :: (cs ++ rest)) = (c :: cs, rest) := by
      have := takeDigits_append (c :: cs) rest
        (by rw [← hshape]; exact natToChars_digits _) hr
      simpa using this
    have hval : digitsToNat (c :: cs) = (-n).toNat := by
      rw [← hshape]; exact digitsToNat_natToChars _
    have hint : -((digitsToNat (c :: cs) : Nat) : Int) = n := by rw [hval]; omega
    have hlb : ('-' : Char) ≠ lbrace := by decide
    simp [hskip, htake, hint, hlb]
  · rw [if_neg hn]
    obtain ⟨c, cs, hshape, hdig⟩ := natToChars_shape n.toNat
    rw [hshape, List.cons_append, parseVal.eq_def]
    have hskip : skipWs (c :: (cs ++ rest)) = c :: (cs ++ rest) :=
      skipWs_cons_not_ws _ _ (isDigit_not_ws hdig)
    have h1 : c ≠ '"' := isDigit_ne _ hdig (by decide)
    have h2 : c ≠ lbrace := isDigit_ne _ hdig (by decide)
    have h3 : c ≠ '[' := isDigit_ne _ hdig (by decide)
    have h4 : c ≠ 'n' := isDigit_ne _ hdig (by decide)
    have h5 : c ≠ 't' := isDigit_ne _ hdig (by decide)
    have h6 : c ≠ 'f' := isDigit_ne _ hdig (by decide)
    have h7 : c ≠ '-' := isDigit_ne _ hdig (by decide)
    have htake : takeDigits (c :: (cs ++ rest)) = (c :: cs, rest) := by
      have := takeDigits_append (c :: cs) rest
        (by rw [← hshape]; exact natToChars_digits _) hr
      simpa using this
    have hval : digitsToNat (c :: cs) = n.toNat := by
      rw [← hshape]; exact digitsToNat_natToChars _
    have hint : ((digitsToNat (c :: cs) : Nat) : Int) = n := by rw [hval]; omega
    simp [hskip, h1, h2, h3, h4, h5, h6, h7, hdig, htake, hint]

theorem Json.size_pos (j : Json) : 1 ≤ Json.size j := by
  cases j <;> simp [Json.size]

theorem stringifyVal_shape (j : Json) :
    ∃ c cs, stringifyVal j = c :: cs ∧ isWsChar c = false ∧ c ≠ ']' := by
  cases j with
  | null => exact ⟨'n', _, rfl, by decide, by decide⟩
  | bool b =>
    cases b
    · exact ⟨'f', _, rfl, by decide, by decide⟩
    · exact ⟨'t', _, rfl, by decide, by decide⟩
  | num n =>
    by_cases hn : n < 0
    · refine ⟨'-', natToChars (-n).toNat, ?_, by decide, by decide⟩
      show intToChars n = _
      rw [intToChars, if_pos hn]
    · obtain ⟨c, cs, hshape, hdig⟩ := natToChars_shape n.toNat
      refine ⟨c, cs, ?_, isDigit_not_ws hdig, isDigit_ne _ hdig (by decide)⟩
      show intToChars n = _
      rw [intToChars, if_neg hn, hshape]
  | str s => exact ⟨'"', _, rfl, by decide, by decide⟩
  | arr xs => exact ⟨'[', _, rfl, by decide, by decide⟩
  | obj fs => exact ⟨lbrace, _, rfl, by decide, by decide⟩

theorem stringifyElems_cons_append (x : Json) (t : JsonList) (suffix : List Char) :
    ∃ q, stringifyElems (JsonList.cons x t) ++ suffix = stringifyVal x ++ q := by
  cases t with
  | nil => exact ⟨suffix, rfl⟩
  | cons y t2 =>
    exact ⟨',' :: (stringifyElems (JsonList.cons y t2) ++ suffix), by
      show (stringifyVal x ++ ',' :: stringifyElems (JsonList.cons y t2)) ++ suffix = _
      simp [List.append_assoc]⟩

theorem stringifyFields_cons_head (k : List Char) (v : Json) (t : JsonFields)
    (suffix : List Char) :
    ∃ q, stringifyFields (JsonFields.cons k v t) ++ suffix = '"' :: q := by
  cases t with
  | nil =>
    exact ⟨(escape k ++ ['"']) ++ (':' :: stringifyVal v ++ suffix), by
      show (stringifyStr k ++ ':' :: stringifyVal v) ++ suffix = _
      simp [stringifyStr, List.append_assoc]⟩
  | cons k2 v2 t2 =>
    exact ⟨(escape k ++ ['"']) ++
        (':' :: stringifyVal v ++ ',' :: stringifyFields (JsonFields.cons k2 v2 t2) ++ suffix), by
      show (stringifyStr k ++ ':' :: stringifyVal v ++
          ',' :: stringifyFields (JsonFields.cons k2 v2 t2)) ++ suffix = _
      simp [stringifyStr, List.append_assoc]⟩

mutual
theorem parse_sv (j : Json) (f : Nat) (hf : Json.size j ≤ f) (rest : List Char)
    (hrest : numSafe rest = true) :
    parseVal f (stringifyVal j ++ rest) = some (j, rest) := by
  obtain ⟨f1, rfl⟩ : ∃ f1, f = f1 + 1 :=
    ⟨f - 1, by have := Json.size_pos j; omega⟩
  cases j with
  | null =>
    rw [show stringifyVal Json.null = ['n', 'u', 'l', 'l'] from rfl, parseVal.eq_def]
    have hskip : skipWs ('n' :: ('u' :: 'l' :: 'l' :: rest)) =
        'n' :: ('u' :: 'l' :: 'l' :: rest) := skipWs_cons_not_ws _ _ (by decide)
    have hdl : dropLit ['u', 'l', 'l'] ('u' :: 'l' :: 'l' :: rest) = some rest := by
      have := dropLit_append ['u', 'l', 'l'] rest
      simpa using this
    have hlb : ('n' : Char) ≠ lbrace := by decide
    simp [hskip, hdl, hlb]
  | bool b =>
    cases b
    · rw [show stringifyVal (Json.bool false) = ['f', 'a', 'l', 's', 'e'] from rfl,
        parseVal.eq_def]
      have hskip : skipWs ('f' :: ('a' :: 'l' :: 's' :: 'e' :: rest)) =
          'f' :: ('a' :: 'l' :: 's' :: 'e' :: rest) := skipWs_cons_not_ws _ _ (by decide)
      have hdl : dropLit ['a', 'l', 's', 'e'] ('a' :: 'l' :: 's' :: 'e' :: rest) = some rest := by
        have := dropLit_append ['a', 'l', 's', 'e'] rest
        simpa using this
      have hlb : ('f' : Char) ≠ lbrace := by decide
      simp [hskip, hdl, hlb]
    · rw [show stringifyVal (Json.bool true) = ['t', 'r', 'u', 'e'] from rfl, parseVal.eq_def]
      have hskip : skipWs ('t' :: ('r' :: 'u' :: 'e' :: rest)) =
          't' :: ('r' :: 'u' :: 'e' :: rest) := skipWs_cons_not_ws _ _ (by decide)
      have hdl : dropLit ['r', 'u', 'e'] ('r' :: 'u' :: 'e' :: rest) = some rest := by
        have := dropLit_append ['r', 'u', 'e'] rest
        simpa using this
      have hlb : ('t' : Char) ≠ lbrace := by decide
      simp [hskip, hdl, hlb]
  | num n => exact parseVal_num n f1 rest hrest
  | str s =>
    rw [show stringifyVal (Json.str s) = '"' :: (escape s ++ ['"']) from rfl]
    have hI : ('"' :: (escape s ++ ['"'])) ++ rest = '"' :: (escape s ++ '"' :: rest) := by
      simp [List.append_assoc]
    rw [hI, parseVal.eq_def]
    have hskip : skipWs ('"' :: (escape s ++ '"' :: rest)) =
        '"' :: (escape s ++ '"' :: rest) := skipWs_cons_not_ws _ _ (by decide)
    simp [hskip, parseStringBody_escape]
  | arr xs =>
    have hsz : JsonList.size xs + 2 ≤ f1 + 1 := by
      simpa [Json.size] using hf
    have hE : parseElems f1 (stringifyElems xs ++ ']' :: rest) = some (xs, rest) := by
      obtain ⟨f2, rfl⟩ : ∃ f2, f1 = f2 + 1 := ⟨f1 - 1, by omega⟩
      cases xs with
      | nil =>
        rw [show stringifyElems JsonList.nil = [] from rfl, List.nil_append, parseElems.eq_def]
        have hskip2 : skipWs (']' :: rest) = ']' :: rest := skipWs_cons_not_ws _ _ (by decide)
        simp [hskip2]
      | cons x t =>
        obtain ⟨q, hq⟩ := stringifyElems_cons_append x t (']' :: rest)
        obtain ⟨c, cs, hx, hws, hne⟩ := stringifyVal_shape x
        have hI : stringifyElems (JsonList.cons x t) ++ ']' :: rest = c :: (cs ++ q) := by
          rw [hq, hx, List.cons_append]
        have hroute : parseElems (f2 + 1) (stringifyElems (JsonList.cons x t) ++ ']' :: rest) =
            parseElems1 f2 (stringifyElems (JsonList.cons x t) ++ ']' :: rest) := by
          rw [hI, parseElems.eq_def]
          have hskip2 : skipWs (c :: (cs ++ q)) = c :: (cs ++ q) := skipWs_cons_not_ws _ _ hws
          simp [hskip2, hne]
        rw [hroute]
        exact parse_elems1 x t f2 (by simp [JsonList.size] at hsz ⊢; omega) rest
    rw [show stringifyVal (Json.arr xs) = '[' :: (stringifyElems xs ++ [']']) from rfl]
    have hI : ('[' :: (stringifyElems xs ++ [']'])) ++ rest =
        '[' :: (stringifyElems xs ++ ']' :: rest) := by
      simp [List.append_assoc]
    rw [hI, parseVal.eq_def]
    have hskip : skipWs ('[' :: (stringifyElems xs ++ ']' :: rest)) =
        '[' :: (stringifyElems xs ++ ']' :: rest) := skipWs_cons_not_ws _ _ (by decide)
    have hlb : ('[' : Char) ≠ lbrace := by decide
    simp [hskip, hlb, hE]
  | obj fs =>
    have hsz : JsonFields.size fs + 2 ≤ f1 + 1 := by
      simpa [Json.size] using hf
    have hF : parseFields f1 (stringifyFields fs ++ rbrace :: rest) = some (fs, rest) := by
      obtain ⟨f2, rfl⟩ : ∃ f2, f1 = f2 + 1 := ⟨f1 - 1, by omega⟩
      cases fs with
      | nil =>
        rw [show stringifyFields JsonFields.nil = [] from rfl, List.nil_append,
          parseFields.eq_def]
        have hskip2 : skipWs (rbrace :: rest) = rbrace :: rest :=
          skipWs_cons_not_ws _ _ (by decide)
        simp [hskip2]
      | cons k v t =>
        obtain ⟨q, hq⟩ := stringifyFields_cons_head k v t (rbrace :: rest)
        have hroute : parseFields (f2 + 1)
            (stringifyFields (JsonFields.cons k v t) ++ rbrace :: rest) =
            parseFields1 f2 (stringifyFields (JsonFields.cons k v t) ++ rbrace :: rest) := by
          rw [hq, parseFields.eq_def]
          have hskip2 : skipWs ('"' :: q) = '"' :: q := skipWs_cons_not_ws _ _ (by decide)
          have hne : ('"' : Char) ≠ rbrace := by decide
          simp [hskip2, hne]
        rw [hroute]
        exact parse_fields1 k v t f2 (by simp [JsonFields.size] at hsz ⊢; omega) rest
    rw [show stringifyVal (Json.obj fs) = lbrace :: (stringifyFields fs ++ [rbrace]) from rfl]
    have hI : (lbrace :: (stringifyFields fs ++ [rbrace])) ++ rest =
        lbrace :: (stringifyFields fs ++ rbrace :: rest) := by
      simp [List.append_assoc]
    rw [hI, parseVal.eq_def]
    have hskip : skipWs (lbrace :: (stringifyFields fs ++ rbrace :: rest)) =
        lbrace :: (stringifyFields fs ++ rbrace :: rest) := skipWs_cons_not_ws _ _ (by decide)
    have h1 : lbrace ≠ '"' := by decide
    simp [hskip, h1, hF]
termination_by sizeOf j

theorem parse_elems1 (x : Json) (t : JsonList) (f : Nat)
    (hf : JsonList.size (JsonList.cons x t) ≤ f) (rest : List Char) :
    parseElems1 f (stringifyElems (JsonList.cons x t) ++ ']' :: rest) =
      some (JsonList.cons x t, rest) := by
  obtain ⟨f1, rfl⟩ : ∃ f1, f = f1 + 1 :=
    ⟨f - 1, by simp [JsonList.size] at hf; omega⟩
  have hx : Json.size x ≤ f1 := by
    have := Json.size_pos x
    simp [JsonList.size] at hf
    omega
  cases t with
  | nil =>
    rw [show stringifyElems (JsonList.cons x JsonList.nil) = stringifyVal x from rfl,
      parseElems1.eq_def]
    have hv : parseVal f1 (stringifyVal x ++ ']' :: rest) = some (x, ']' :: rest) :=
      parse_sv x f1 hx (']' :: rest) rfl
    have hskip : skipWs (']' :: rest) = ']' :: rest := skipWs_cons_not_ws _ _ (by decide)
    simp [hv, hskip]
  | cons y t2 =>
    rw [show stringifyElems (JsonList.cons x (JsonList.cons y t2)) =
        stringifyVal x ++ ',' :: stringifyElems (JsonList.cons y t2) from rfl]
    have hI : (stringifyVal x ++ ',' :: stringifyElems (JsonList.cons y t2)) ++ ']' :: rest =
        stringifyVal x ++ ',' :: (stringifyElems (JsonList.cons y t2) ++ ']' :: rest) := by
      simp [List.append_assoc]
    rw [hI, parseElems1.eq_def]
    have hv : parseVal f1
        (stringifyVal x ++ ',' :: (stringifyElems (JsonList.cons y t2) ++ ']' :: rest)) =
        some (x, ',' :: (stringifyElems (JsonList.cons y t2) ++ ']' :: rest)) :=
      parse_sv x f1 hx _ rfl
    have hskip : skipWs (',' :: (stringifyElems (JsonList.cons y t2) ++ ']' :: rest)) =
        ',' :: (stringifyElems (JsonList.cons y t2) ++ ']' :: rest) :=
      skipWs_cons_not_ws _ _ (by decide)
    have hrec : parseElems1 f1 (stringifyElems (JsonList.cons y t2) ++ ']' :: rest) =
        some (JsonList.cons y t2, rest) :=
      parse_elems1 y t2 f1 (by simp [JsonList.size] at hf ⊢; omega) rest
    simp [hv, hskip, hrec]
termination_by sizeOf x + sizeOf t

theorem parse_fields1 (k : List Char) (v : Json) (t : JsonFields) (f : Nat)
    (hf : JsonFields.size (JsonFields.cons k v t) ≤ f) (rest : List Char) :
    parseFields1 f (stringifyFields (JsonFields.cons k v t) ++ rbrace :: rest) =
      some (JsonFields.cons k v t, rest) := by
  obtain ⟨f1, rfl⟩ : ∃ f1, f = f1 + 1 :=
    ⟨f - 1, by simp [JsonFields.size] at hf; omega⟩
  have hv1 : Json.size v ≤ f1 := by
    have := Json.size_pos v
    simp [JsonFields.size] at hf
    omega
  cases t with
  | nil =>
    rw [show stringifyFields (JsonFields.cons k v JsonFields.nil) =
        stringifyStr k ++ ':' :: stringifyVal v from rfl]
    have hI : (stringifyStr k ++ ':' :: stringifyVal v) ++ rbrace :: rest =
        '"' :: (escape k ++ '"' :: (':' :: (stringifyVal v ++ rbrace :: rest))) := by
      simp [stringifyStr, List.append_assoc]
    rw [hI, parseFields1.eq_def]
    have hskip1 : skipWs ('"' :: (escape k ++ '"' :: (':' :: (stringifyVal v ++ rbrace :: rest)))) =
        '"' :: (escape k ++ '"' :: (':' :: (stringifyVal v ++ rbrace :: rest))) :=
      skipWs_cons_not_ws _ _ (by decide)
    have hskip2 : skipWs (':' :: (stringifyVal v ++ rbrace :: rest)) =
        ':' :: (stringifyVal v ++ rbrace :: rest) := skipWs_cons_not_ws _ _ (by decide)
    have hval : parseVal f1 (stringifyVal v ++ rbrace :: rest) = some (v, rbrace :: rest) :=
      parse_sv v f1 hv1 _ rfl
    have hskip3 : skipWs (rbrace :: rest) = rbrace :: rest := skipWs_cons_not_ws _ _ (by decide)
    have hne : rbrace ≠ ',' := by decide
    simp [hskip1, parseStringBody_escape, hskip2, hval, hskip3, hne]
  | cons k2 v2 t2 =>
    rw [show stringifyFields (JsonFields.cons k v (JsonFields.cons k2 v2 t2)) =
        stringifyStr k ++ ':' :: stringifyVal v ++
          ',' :: stringifyFields (JsonFields.cons k2 v2 t2) from rfl]
    have hI : (stringifyStr k ++ ':' :: stringifyVal v ++
        ',' :: stringifyFields (JsonFields.cons k2 v2 t2)) ++ rbrace :: rest =
        '"' :: (escape k ++ '"' :: (':' :: (stringifyVal v ++
          ',' :: (stringifyFields (JsonFields.cons k2 v2 t2) ++ rbrace :: rest)))) := by
      simp [stringifyStr, List.append_assoc]
    rw [hI, parseFields1.eq_def]
    have hskip1 : skipWs ('"' :: (escape k ++ '"' :: (':' :: (stringifyVal v ++
        ',' :: (stringifyFields (JsonFields.cons k2 v2 t2) ++ rbrace :: rest))))) =
        '"' :: (escape k ++ '"' :: (':' :: (stringifyVal v ++
          ',' :: (stringifyFields (JsonFields.cons k2 v2 t2) ++ rbrace :: rest)))) :=
      skipWs_cons_not_ws _ _ (by decide)
    have hskip2 : skipWs (':' :: (stringifyVal v ++
        ',' :: (stringifyFields (JsonFields.cons k2 v2 t2) ++ rbrace :: rest))) =
        ':' :: (stringifyVal v ++
          ',' :: (stringifyFields (JsonFields.cons k2 v2 t2) ++ rbrace :: rest)) :=
      skipWs_cons_not_ws _ _ (by decide)
    have hval : parseVal f1 (stringifyVal v ++
        ',' :: (stringifyFields (JsonFields.cons k2 v2 t2) ++ rbrace :: rest)) =
        some (v, ',' :: (stringifyFields (JsonFields.cons k2 v2 t2) ++ rbrace :: rest)) :=
      parse_sv v f1 hv1 _ rfl
    have hskip3 : skipWs (',' :: (stringifyFields (JsonFields.cons k2 v2 t2) ++ rbrace :: rest)) =
        ',' :: (stringifyFields (JsonFields.cons k2 v2 t2) ++ rbrace :: rest) :=
      skipWs_cons_not_ws _ _ (by decide)
    have hrec : parseFields1 f1 (stringifyFields (JsonFields.cons k2 v2 t2) ++ rbrace :: rest) =
        some (JsonFields.cons k2 v2 t2, rest) :=
      parse_fields1 k2 v2 t2 f1 (by simp [JsonFields.size] at hf ⊢; omega) rest
    simp [hskip1, parseStringBody_escape, hskip2, hval, hskip3, hrec]
termination_by sizeOf v + sizeOf t
end

theorem intToChars_length_pos (n : Int) : 1 ≤ (intToChars n).length := by
  rw [intToChars]
  by_cases hn : n < 0
  · simp [hn]
  · rw [if_neg hn]
    obtain ⟨c, cs, hshape, _⟩ := natToChars_shape n.toNat
    simp [hshape]

mutual
theorem size_le_sv (j : Json) : Json.size j ≤ 3 * (stringifyVal j).length := by
  cases j with
  | null => simp [Json.size, stringifyVal]
  | bool b => cases b <;> simp [Json.size, stringifyVal]
  | num n =>
    have := intToChars_length_pos n
    simp only [Json.size, stringifyVal]
    omega
  | str s =>
    simp only [Json.size, stringifyVal, stringifyStr]
    simp only [List.length_cons, List.length_append, List.length_singleton]
    omega
  | arr xs =>
    have := Lsize_le xs
    simp only [Json.size, stringifyVal]
    simp only [List.length_cons, List.length_append, List.length_singleton]
    omega
  | obj fs =>
    have := Fsize_le fs
    simp only [Json.size, stringifyVal]
    simp only [List.length_cons, List.length_append, List.length_singleton]
    omega
termination_by sizeOf j

theorem Lsize_le (xs : JsonList) : JsonList.size xs ≤ 3 * (stringifyElems xs).length + 1 := by
  cases xs with
  | nil => simp [JsonList.size, stringifyElems]
  | cons x t =>
    have hx := size_le_sv x
    cases t with
    | nil =>
      rw [show stringifyElems (JsonList.cons x JsonList.nil) = stringifyVal x from rfl]
      simp only [JsonList.size]
      omega
    | cons y t2 =>
      have ht := Lsize_le (JsonList.cons y t2)
      rw [show stringifyElems (JsonList.cons x (JsonList.cons y t2)) =
          stringifyVal x ++ ',' :: stringifyElems (JsonList.cons y t2) from rfl]
      simp only [JsonList.size, List.length_append, List.length_cons]
      simp only [JsonList.size] at ht
      omega
termination_by sizeOf xs

theorem Fsize_le (fs : JsonFields) : JsonFields.size fs ≤ 3 * (stringifyFields fs).length + 1 := by
  cases fs with
  | nil => simp [JsonFields.size, stringifyFields]
  | cons k v t =>
    have hv := size_le_sv v
    cases t with
    | nil =>
      rw [show stringifyFields (JsonFields.cons k v JsonFields.nil) =
          stringifyStr k ++ ':' :: stringifyVal v from rfl]
      simp only [JsonFields.size, List.length_append, List.length_cons]
      omega
    | cons k2 v2 t2 =>
      have ht := Fsize_le (JsonFields.cons k2 v2 t2)
      rw [show stringifyFields (JsonFields.cons k v (JsonFields.cons k2 v2 t2)) =
          stringifyStr k ++ ':' :: stringifyVal v ++
            ',' :: stringifyFields (JsonFields.cons k2 v2 t2) from rfl]
      simp only [JsonFields.size, List.length_append, List.length_cons]
      simp only [JsonFields.size] at ht
      omega
termination_by sizeOf fs
end

theorem parseJson_stringify (j : Json) : parseJson (stringifyVal j) = some j := by
  have h := parse_sv j (3 * (stringifyVal j).length + 4)
    (by have := size_le_sv j; omega) [] rfl
  rw [List.append_nil] at h
  simp [parseJson, h, skipWs]

theorem processLine_parse_failure (acc line : List Char)
    (h1 : dataMarker.isPrefixOf line = true)
    (h2 : parseJson (line.drop 6) = none) :
    processLine acc line = acc := by
  by_cases hd : line.drop 6 = doneTok
  · simp [processLine, h1, hd]
  · simp [processLine, h1, hd, h2]

theorem foldl_processLine_middle (acc : List Char) (pre post : List (List Char))
    (line : List Char) (hline : ∀ a, processLine a line = a) :
    List.foldl processLine acc (pre ++ line :: post) =
      List.foldl processLine acc (pre ++ post) := by
  simp [List.foldl_append, List.foldl_cons, hline]

theorem processLine_done (acc : List Char) : processLine acc doneLine = acc := by
  have h1 : dataMarker.isPrefixOf doneLine = true := by decide
  have h2 : doneLine.drop 6 = doneTok := by decide
  simp [processLine, h1, h2]

theorem lookupField_setField_self (fs : JsonFields) (k : List Char) (v : Json) :
    lookupField (setField fs k v) k = some v := by
  cases fs with
  | nil => simp [setField, lookupField]
  | cons k2 v2 t =>
    by_cases h : k2 = k
    · simp [setField, h, lookupField]
    · simp [setField, h, lookupField, lookupField_setField_self t k v]
termination_by sizeOf fs

theorem lookupField_setField_ne (fs : JsonFields) (k q : List Char) (v : Json)
    (h : q ≠ k) :
    lookupField (setField fs k v) q = lookupField fs q := by
  cases fs with
  | nil =>
    have h2 : k ≠ q := fun he => h he.symm
    simp [setField, lookupField, h2]
  | cons k2 v2 t =>
    by_cases h2 : k2 = k
    · subst h2
      have h3 : k2 ≠ q := fun he => h he.symm
      simp [setField, lookupField, h3]
    · simp [setField, h2, lookupField, lookupField_setField_ne t k q v h]
termination_by sizeOf fs

theorem jsTruthy_false_not_obj {v : Json} (h : jsTruthy v = false) (ps : JsonFields) :
    v ≠ Json.obj ps := by
  intro he
  subst he
  simp [jsTruthy] at h

theorem updateConfigJson_props (config : Json) (p cipher : List Char) (config2 : Json)
    (h : updateConfigJson config p cipher = some config2) :
    providerEntry config2 p =
      some (Json.obj (JsonFields.cons apiKeyKey (Json.str cipher) JsonFields.nil)) ∧
    ∀ q, q ≠ p → providerEntry config2 q = providerEntry config q := by
  cases config with
  | null => simp [updateConfigJson] at h
  | bool b => simp [updateConfigJson] at h
  | num n => simp [updateConfigJson] at h
  | str s => simp [updateConfigJson] at h
  | arr xs => simp [updateConfigJson] at h
  | obj fields =>
    simp only [updateConfigJson] at h
    rcases hl : lookupField fields providersKey with _ | v
    · rw [hl] at h
      rw [lookupField_setField_self] at h
      simp only [Option.some.injEq] at h
      subst h
      constructor
      · simp [providerEntry, jsonField, lookupField_setField_self, setField, lookupField]
      · intro q hq
        have hqp : p ≠ q := fun he => hq he.symm
        simp [providerEntry, jsonField, lookupField_setField_self, hl, setField,
          lookupField, hqp]
    · rw [hl] at h
      simp only [] at h
      by_cases ht : jsTruthy v
      · rw [if_pos ht, hl] at h
        cases v with
        | obj ps =>
          simp only [Option.some.injEq] at h
          subst h
          constructor
          · simp [providerEntry, jsonField, lookupField_setField_self]
          · intro q hq
            simp [providerEntry, jsonField, lookupField_setField_self, hl,
              lookupField_setField_ne _ _ _ _ hq]
        | null => simp at h
        | bool b => simp at h
        | num n => simp at h
        | str s => simp at h
        | arr xs => simp at h
      · rw [if_neg ht, lookupField_setField_self] at h
        simp only [Option.some.injEq] at h
        subst h
        have hvo : ∀ ps, v ≠ Json.obj ps :=
          jsTruthy_false_not_obj (Bool.eq_false_iff.mpr ht ▸ rfl)
        constructor
        · simp [providerEntry, jsonField, lookupField_setField_self, setField, lookupField]
        · intro q hq
          have hqp : p ≠ q := fun he => hq he.symm
          have hentry : providerEntry (Json.obj fields) q = none := by
            simp only [providerEntry, jsonField, hl]
            cases v with
            | obj ps => exact absurd rfl (hvo ps)
            | null => rfl
            | bool b => rfl
            | num n => rfl
            | str s => rfl
            | arr xs => rfl
          rw [hentry]
          simp [providerEntry, jsonField, lookupField_setField_self, setField,
            lookupField, hqp]

theorem isPrefixOf_append (l t : List Char) : l.isPrefixOf (l ++ t) = true := by
  induction l with
  | nil => simp [List.isPrefixOf]
  | cons c cs ih => simp [List.isPrefixOf, ih]

theorem decrypt_encrypt (k : List Char) : decryptApiKey (encryptApiKey k) = k := by
  simp [decryptApiKey, encryptApiKey, cryptoAesEncrypt, cryptoAesDecrypt,
    isPrefixOf_append, List.drop_left]

/-- C1 counterexample: the stream decoder is not invariant under chunk
boundaries.  Tearing one complete event line mid JSON token yields an empty
accumulator, while processing the same bytes as one chunk yields `hi`: the
decoder does not hold back the final incomplete segment of a chunk. -/
theorem c1_counterexample :
    eventHiPart1 ++ eventHiPart2 = eventHiChunk ∧
    List.foldl processChunk [] [eventHiPart1, eventHiPart2] ≠
      processChunk [] eventHiChunk := by
  constructor
  · decide
  · decide

/-- C1 (amended): when every chunk boundary falls at a line boundary (each
chunk except possibly the last ends with a newline), running the stream
decoder over the chunk sequence produces the same accumulated text as
running it over the whole stream as one chunk. -/
theorem c1_line_boundary_equivalence (chunks : List (List Char))
    (hchunks : ∀ c ∈ chunks.dropLast, ∃ a, c = a ++ ['\n']) :
    List.foldl processChunk [] chunks = processChunk [] chunks.flatten :=
  foldl_processChunk_join chunks [] hchunks

/-- Witness for the amended C1 statement on a concrete two-chunk split. -/
theorem c1_witness :
    (∀ c ∈ ([chars "a\n", chars "b"] : List (List Char)).dropLast,
      ∃ a, c = a ++ ['\n']) ∧
    List.foldl processChunk [] [chars "a\n", chars "b"] =
      processChunk [] ([chars "a\n", chars "b"] : List (List Char)).flatten := by
  have hh : ∀ c ∈ ([chars "a\n", chars "b"] : List (List Char)).dropLast,
      ∃ a, c = a ++ ['\n'] := by
    intro c hc
    simp only [List.dropLast, List.mem_singleton] at hc
    subst hc
    exact ⟨chars "a", by decide⟩
  exact ⟨hh, c1_line_boundary_equivalence _ hh⟩

/-- C2 counterexample: the decoder does not terminate the stream at the
`[DONE]` sentinel: a delta event placed after a complete `data: [DONE]` line
is still decoded and appended. -/
theorem c2_counterexample :
    processChunk [] (doneChunk ++ eventHiChunk) = chars "hi" ∧
    chars "hi" ≠ ([] : List Char) := by
  constructor
  · decide
  · decide

/-- C2 (amended): a complete line whose `data: ` payload is `[DONE]` is
skipped, leaving the accumulator unchanged wherever the line occurs, and any
two-chunk split of the sentinel line also contributes nothing; however the
decoder continues with subsequent lines instead of terminating the stream. -/
theorem c2_done_skipped :
    (∀ (acc : List Char) (pre post : List (List Char)),
      List.foldl processLine acc (pre ++ doneLine :: post) =
        List.foldl processLine acc (pre ++ post)) ∧
    (∀ i : Fin 14,
      List.foldl processChunk [] [doneChunk.take i, doneChunk.drop i] = []) := by
  constructor
  · intro acc pre post
    exact foldl_processLine_middle acc pre post doneLine processLine_done
  · decide

/-- C3: a line whose `data: ` payload fails JSON parsing leaves the text
accumulator unchanged and does not abort the stream: the remaining lines are
processed exactly as if the malformed line were absent. -/
theorem c3_malformed_line_skipped (acc : List Char) (pre post : List (List Char))
    (line : List Char) (h1 : dataMarker.isPrefixOf line = true)
    (h2 : parseJson (line.drop 6) = none) :
    List.foldl processLine acc (pre ++ line :: post) =
      List.foldl processLine acc (pre ++ post) :=
  foldl_processLine_middle acc pre post line
    (fun a => processLine_parse_failure a line h1 h2)

/-- Witness for C3 on a concrete malformed line between two live lines. -/
theorem c3_witness :
    dataMarker.isPrefixOf (chars "data: nope") = true ∧
    parseJson ((chars "data: nope").drop 6) = none ∧
    List.foldl processLine (chars "x") ([doneLine] ++ chars "data: nope" :: [doneLine]) =
      List.foldl processLine (chars "x") ([doneLine] ++ [doneLine]) :=
  ⟨by decide, by decide,
    c3_malformed_line_skipped (chars "x") [doneLine] [doneLine] (chars "data: nope")
      (by decide) (by decide)⟩

/-- C4 counterexample: the chat save operation does not cap the history at
50: streaming one turn on top of a 49-message history persists 51 entries. -/
theorem c4_counterexample :
    (sendMessageResult ((List.range 49).map mkChatMessage) msgU
      (chars "a9") (chars "t9") []).length = 51 ∧
    ¬ (sendMessageResult ((List.range 49).map mkChatMessage) msgU
      (chars "a9") (chars "t9") []).length ≤ 50 := by
  have h : (sendMessageResult ((List.range 49).map mkChatMessage) msgU
      (chars "a9") (chars "t9") []).length = 51 := by
    simp [sendMessageResult]
  exact ⟨h, by omega⟩

/-- C4 (amended): only the image-generation history append truncates to 50
entries; the chat and text-chat save operations persist the full message
list, whose length grows by two per completed turn without bound. -/
theorem c4_amended :
    (∀ (item : GenerationItem) (existing : List GenerationItem),
      (appendGenerationHistory item existing).length ≤ 50) ∧
    (∀ (prior : List Message) (userMsg : Message) (aid ts : List Char)
        (chunks : List (List Char)),
      (sendMessageResult prior userMsg aid ts chunks).length = prior.length + 2) ∧
    (∀ (messages : List Message) (u a : Message),
      (appendTextChatTurn messages u a).length = messages.length + 2) := by
  refine ⟨?_, ?_, ?_⟩
  · intro item existing
    simp [appendGenerationHistory]
  · intro prior userMsg aid ts chunks
    simp [sendMessageResult]
  · intro messages u a
    simp [appendTextChatTurn]

/-- C5: appending a record to a generation history of size exactly 50 yields
a history of size exactly 50 whose first entry is the appended record, whose
remaining entries are the previous first 49 in order, and whose previous
fiftieth entry has been evicted. -/
theorem c5_append_at_capacity (x : GenerationItem) (h : List GenerationItem)
    (hlen : h.length = 50) :
    appendGenerationHistory x h = x :: h.take 49 ∧
      (appendGenerationHistory x h).length = 50 ∧
      (appendGenerationHistory x h).head? = some x := by
  have h1 : appendGenerationHistory x h = x :: h.take 49 := by
    rw [appendGenerationHistory, show (50 : Nat) = 49 + 1 from rfl, List.take_succ_cons]
  refine ⟨h1, ?_, by simp [h1]⟩
  rw [h1]
  simp [List.length_take, hlen]

/-- Witness for C5 on a concrete history of exactly 50 records. -/
theorem c5_witness :
    ((List.range 50).map mkGenerationItem).length = 50 ∧
    appendGenerationHistory (mkGenerationItem 99) ((List.range 50).map mkGenerationItem) =
      mkGenerationItem 99 :: ((List.range 50).map mkGenerationItem).take 49 ∧
    (appendGenerationHistory (mkGenerationItem 99)
      ((List.range 50).map mkGenerationItem)).length = 50 := by
  have hlen : ((List.range 50).map mkGenerationItem).length = 50 := by simp
  obtain ⟨h1, h2, _⟩ :=
    c5_append_at_capacity (mkGenerationItem 99) ((List.range 50).map mkGenerationItem) hlen
  exact ⟨hlen, h1, h2⟩

/-- C6: the image-generation request body carries a singular `image` field
holding the single reference when exactly one reference image is supplied,
and a plural `images` field holding all references in order when two or more
are supplied. -/
theorem c6_image_fields (m p sz r : List Char) (refs : List (List Char))
    (h2 : 2 ≤ refs.length) :
    ((generateImageRequestBody m p sz [r]).image = some r ∧
      (generateImageRequestBody m p sz [r]).images = none) ∧
    ((generateImageRequestBody m p sz refs).images = some refs ∧
      (generateImageRequestBody m p sz refs).image = none) := by
  constructor
  · constructor <;> simp [generateImageRequestBody]
  · have h0 : 0 < refs.length := by omega
    have h1 : refs.length ≠ 1 := by omega
    constructor <;> simp [generateImageRequestBody, h0, h1]

/-- Witness for C6 on a singleton and a two-element reference list. -/
theorem c6_witness :
    2 ≤ ([chars "r1", chars "r2"] : List (List Char)).length ∧
    (((generateImageRequestBody (chars "m") (chars "p") (chars "s")
        [chars "r0"]).image = some (chars "r0") ∧
      (generateImageRequestBody (chars "m") (chars "p") (chars "s")
        [chars "r0"]).images = none) ∧
    ((generateImageRequestBody (chars "m") (chars "p") (chars "s")
        [chars "r1", chars "r2"]).images = some [chars "r1", chars "r2"] ∧
      (generateImageRequestBody (chars "m") (chars "p") (chars "s")
        [chars "r1", chars "r2"]).image = none)) :=
  ⟨by simp, c6_image_fields (chars "m") (chars "p") (chars "s") (chars "r0")
    [chars "r1", chars "r2"] (by simp)⟩

/-- C7 counterexample: on the regeneration path, a mid-stream failure after a
delta has been decoded restores the original message list, so the partially
accumulated text `hi` is discarded and appears in no visible message. -/
theorem c7_counterexample :
    regenerateMessageResult [msgU, msgA] (chars "a1") (chars "a2") (chars "t2")
        [eventHiChunk] true = [msgU, msgA] ∧
    ∀ m ∈ ([msgU, msgA] : List Message), m.content ≠ chars "hi" := by
  constructor
  · decide
  · decide

/-- C7 (amended): on the sendMessage path the partially accumulated text is
preserved: the visible list always ends with the assistant message holding
the accumulated text, both on success and when a chunk read raises (the
catch block performs no list update); on the regenerateMessage path a
mid-stream failure restores the original message list, discarding the
partial text. -/
theorem c7_partial_preservation :
    (∀ (prior : List Message) (userMsg : Message) (aid ts : List Char)
        (chunks : List (List Char)),
      (sendMessageResult prior userMsg aid ts chunks).getLast? =
        some { id := aid, role := Role.assistant,
               content := List.foldl processChunk [] chunks, images := [],
               timestamp := ts, model := none, providerId := none }) ∧
    (∀ (messages : List Message) (mid nid ts : List Char)
        (chunks : List (List Char)),
      regenerateMessageResult messages mid nid ts chunks true = messages) := by
  constructor
  · intro prior userMsg aid ts chunks
    show (List.map _ ((prior ++ [userMsg]) ++ [_])).getLast? = _
    rw [List.map_append]
    simp only [List.map_cons, List.map_nil]
    rw [List.getLast?_concat]
    simp
  · intro messages mid nid ts chunks
    rcases hidx : messages.findIdx? (fun m => m.id == mid) with _ | idx
    · simp [regenerateMessageResult, hidx]
    · simp only [regenerateMessageResult, hidx]
      by_cases h0 : idx = 0
      · simp [h0]
      · rw [if_neg h0]
        rcases hget : messages[idx - 1]? with _ | prev
        · simp [hget]
        · simp only [hget]
          by_cases hrole : prev.role = Role.user
          · simp [hrole]
          · simp [hrole]

/-- C8: encrypting an API key and then decrypting it returns the original
key, and any input that is not valid ciphertext (the modelled decryption
fails on it) decrypts to the empty string instead of raising. -/
theorem c8_roundtrip :
    (∀ k, decryptApiKey (encryptApiKey k) = k) ∧
    (∀ s, cryptoAesDecrypt ENCRYPT_KEY s = none → decryptApiKey s = []) := by
  constructor
  · exact decrypt_encrypt
  · intro s hs
    simp [decryptApiKey, hs]

/-- Witness for C8 on a concrete key and a concrete non-ciphertext input. -/
theorem c8_witness :
    decryptApiKey (encryptApiKey (chars "abc")) = chars "abc" ∧
    cryptoAesDecrypt ENCRYPT_KEY (chars "zz") = none ∧
    decryptApiKey (chars "zz") = [] :=
  ⟨c8_roundtrip.1 (chars "abc"), by decide, c8_roundtrip.2 (chars "zz") (by decide)⟩

/-- C9: a successful updateProviderConfig leaves the stored entry of every
other provider unchanged, and the stored entry of the updated provider holds
an apiKey ciphertext that decrypts back to the given key. -/
theorem c9_update_frame (store : ConfigStore) (p k q : List Char)
    (store2 : ConfigStore)
    (hupd : updateProviderConfig store p k = some store2) (hq : q ≠ p) :
    providerEntry (getApiConfig store2) q = providerEntry (getApiConfig store) q ∧
    providerEntry (getApiConfig store2) p =
      some (Json.obj (JsonFields.cons apiKeyKey
        (Json.str (encryptApiKey k)) JsonFields.nil)) ∧
    decryptApiKey (encryptApiKey k) = k := by
  rw [updateProviderConfig] at hupd
  rcases hcfg : updateConfigJson (getApiConfig store) p (encryptApiKey k) with _ | cfg2
  · rw [hcfg] at hupd
    simp at hupd
  · rw [hcfg] at hupd
    simp only [Option.map_some', Option.some.injEq] at hupd
    subst hupd
    have hround : getApiConfig (saveApiConfig cfg2) = cfg2 := by
      simp [saveApiConfig, getApiConfig, parseJson_stringify]
    obtain ⟨hself, hframe⟩ := updateConfigJson_props _ _ _ _ hcfg
    exact ⟨by rw [hround]; exact hframe q hq, by rw [hround]; exact hself,
      decrypt_encrypt k⟩

/-- Witness for C9: writing key `xyz` for provider `a` into an empty store
leaves provider `b` absent as before and stores a decryptable entry. -/
theorem c9_witness :
    updateProviderConfig none (chars "a") (chars "xyz") = some (some c9StoredBlob) ∧
    chars "b" ≠ chars "a" ∧
    (providerEntry (getApiConfig (some c9StoredBlob)) (chars "b") =
        providerEntry (getApiConfig none) (chars "b") ∧
      providerEntry (getApiConfig (some c9StoredBlob)) (chars "a") =
        some (Json.obj (JsonFields.cons apiKeyKey
          (Json.str (encryptApiKey (chars "xyz"))) JsonFields.nil)) ∧
      decryptApiKey (encryptApiKey (chars "xyz")) = chars "xyz") :=
  ⟨by decide, by decide,
    c9_update_frame none (chars "a") (chars "xyz") (chars "b") (some c9StoredBlob)
      (by decide) (by decide)⟩

/-- C10: getApiConfig is total and returns the empty configuration both when
the stored entry is absent and when it is present but not valid JSON. -/
theorem c10_default_on_bad_config :
    getApiConfig none = emptyProvidersConfig ∧
    ∀ s, parseJson s = none → getApiConfig (some s) = emptyProvidersConfig := by
  constructor
  · rfl
  · intro s hs
    simp [getApiConfig, hs]

/-- Witness for C10 on a concrete non-JSON stored blob. -/
theorem c10_witness :
    parseJson (chars "not json") = none ∧
    getApiConfig (some (chars "not json")) = emptyProvidersConfig ∧
    getApiConfig none = emptyProvidersConfig :=
  ⟨by decide, c10_default_on_bad_config.2 (chars "not json") (by decide),
    c10_default_on_bad_config.1⟩
